import Mathlib

/- Shallow embedding of the repository documentation generator (src/main.py):
   the gitignore pattern engine (GitignoreParser), the default ignore registry
   (DEFAULT_IGNORE_PATTERNS), the recursive file collector (_collect_files),
   and the selection state operations of the preview window. Python strings
   are modelled as lists of characters; the filesystem is modelled as a tree
   of named entries. Recursive procedures whose recursion is not structural
   (the glob matcher and the tree walk) take an explicit fuel argument that is
   always called with a sufficient bound; fuel sufficiency lemmas below show
   the results do not depend on the exact bound. Filesystem effects outside
   the algorithms (permission failures while listing a directory, file
   timestamps) are represented as data of the tree, and the excluded-path
   set of the preview window is modelled as a finite set of paths. -/

/-- Python strings are modelled as lists of characters. -/
abbrev PyStr := List Char

/-- Embed a Lean string literal as a Python string value. -/
def pystr (s : String) : PyStr := s.data

/-- Whitespace characters removed by Python str.strip. -/
def pyIsSpace (c : Char) : Bool :=
  c == ' ' || c == '\t' || c == '\n' || c == '\r' || c == '\x0b' || c == '\x0c'

/-- Python str.strip: whitespace removed from both ends. -/
def pyStrip (s : PyStr) : PyStr :=
  ((s.dropWhile pyIsSpace).reverse.dropWhile pyIsSpace).reverse

/-- os.path.basename on a forward slash path: the part after the last slash. -/
def basename (p : PyStr) : PyStr :=
  (p.reverse.takeWhile (fun c => c != '/')).reverse

/-- The backslash to forward slash normalisation done by should_ignore. -/
def normalizeSlashes (p : PyStr) : PyStr :=
  p.map fun c => if c == '\\' then '/' else c

/- ----------------------------------------------------------------------
   fnmatch.fnmatch, the shell glob matcher used throughout main.py.
   The pattern is first translated into a token list (mirroring
   fnmatch.translate) and then matched against the whole name.
   ---------------------------------------------------------------------- -/

/-- Tokens of a translated glob pattern, mirroring fnmatch.translate:
    a star, a single character wildcard, a literal character, or a
    bracket character class (negated flag plus raw class body). -/
inductive GlobTok where
  | star : GlobTok
  | anyChar : GlobTok
  | lit : Char → GlobTok
  | cls : Bool → PyStr → GlobTok

/-- Number of leading characters of a bracket body that can never close the
    class: an optional negating bang, then an optional literal closing
    bracket, mirroring the index scan in fnmatch.translate. -/
def classSkip (body : PyStr) : Nat :=
  if body.head? == some '!' then
    if (body.drop 1).head? == some ']' then 2 else 1
  else
    if body.head? == some ']' then 1 else 0

/-- Locate the closing bracket of a character class. Returns the class body
    (bang included, as in fnmatch.translate) and the remainder of the
    pattern after the closing bracket, or none when the class is unclosed. -/
def classSpan (body : PyStr) : Option (PyStr × PyStr) :=
  match (body.drop (classSkip body)).findIdx? (fun c => c == ']') with
  | none => none
  | some j =>
    some (body.take (classSkip body + j), body.drop (classSkip body + j + 1))

/-- Membership of a character in a bracket class body: either a literal
    member or an inclusive character range written with a dash. -/
def classMember (c : Char) : PyStr → Bool
  | a :: '-' :: b :: rest =>
    (decide (a ≤ c) && decide (c ≤ b)) || classMember c rest
  | a :: rest => (c == a) || classMember c rest
  | [] => false

/-- Translate a glob pattern into tokens. Fuel is consumed once per token;
    every step removes at least one pattern character, so pattern length
    plus one is always sufficient fuel. -/
def translateF : Nat → PyStr → List GlobTok
  | 0, _ => []
  | _ + 1, [] => []
  | f + 1, c :: ps =>
    if c = '*' then GlobTok.star :: translateF f ps
    else if c = '?' then GlobTok.anyChar :: translateF f ps
    else if c = '[' then
      match classSpan ps with
      | none => GlobTok.lit '[' :: translateF f ps
      | some (stuff, rest) =>
        (if stuff.head? == some '!' then GlobTok.cls true stuff.tail
         else GlobTok.cls false stuff) :: translateF f rest
    else GlobTok.lit c :: translateF f ps

/-- Translate a glob pattern into tokens. -/
def globTranslate (pat : PyStr) : List GlobTok := translateF (pat.length + 1) pat

/-- Token matcher: star either matches nothing or consumes one character and
    stays; the other tokens consume exactly one character. Every recursive
    call decreases the sum of token list length and name length, so that sum
    plus one is always sufficient fuel. -/
def tokMatchF : Nat → List GlobTok → PyStr → Bool
  | 0, _, _ => false
  | _ + 1, [], s => s.isEmpty
  | f + 1, GlobTok.star :: ts, s =>
    tokMatchF f ts s ||
      (match s with
       | [] => false
       | _ :: s2 => tokMatchF f (GlobTok.star :: ts) s2)
  | f + 1, GlobTok.anyChar :: ts, s =>
    match s with
    | [] => false
    | _ :: s2 => tokMatchF f ts s2
  | f + 1, GlobTok.lit c :: ts, s =>
    match s with
    | [] => false
    | c2 :: s2 => (c2 == c) && tokMatchF f ts s2
  | f + 1, GlobTok.cls neg content :: ts, s =>
    match s with
    | [] => false
    | c2 :: s2 => (classMember c2 content != neg) && tokMatchF f ts s2

/-- fnmatch.fnmatch with POSIX case handling: the whole name must match the
    whole pattern. -/
def fnmatch (nm pat : PyStr) : Bool :=
  tokMatchF ((globTranslate pat).length + nm.length + 1) (globTranslate pat) nm

/- ----------------------------------------------------------------------
   GitignoreParser (src/main.py lines 20-88).
   ---------------------------------------------------------------------- -/

/-- State of GitignoreParser: the ordered match patterns and the ordered
    negation patterns collected from the gitignore file. -/
structure GitignoreParser where
  patterns : List PyStr
  negation_patterns : List PyStr
deriving DecidableEq

/-- One iteration of the line loop in _parse_gitignore: strip the line, skip
    blank lines and comments, route bang lines to the negation list (bang
    removed) and every other line to the match list. -/
def parseGitignoreLine (g : GitignoreParser) (rawLine : PyStr) : GitignoreParser :=
  let line := pyStrip rawLine
  if line.isEmpty then g
  else if line.head? == some '#' then g
  else if line.head? == some '!' then
    { g with negation_patterns := g.negation_patterns ++ [line.tail] }
  else { g with patterns := g.patterns ++ [line] }

/-- The parsing loop of _parse_gitignore over the lines read from the file. -/
def parseGitignoreLines (lines : List PyStr) : GitignoreParser :=
  lines.foldl parseGitignoreLine { patterns := [], negation_patterns := [] }

/-- Outcome of trying to read the gitignore file: the file is absent, the
    file is read completely, or reading raises after yielding some lines. -/
inductive GitignoreSource where
  | absent : GitignoreSource
  | readable : List PyStr → GitignoreSource
  | unreadableAfter : List PyStr → GitignoreSource

/-- GitignoreParser construction. An absent file leaves both lists empty
    (the exists check in the constructor). When reading raises midway, the
    exception handler in _parse_gitignore keeps the rules appended so far and
    only prints a warning, so the parser holds exactly the rules of the lines
    that were yielded before the failure; construction itself never fails. -/
def mkGitignoreParser : GitignoreSource → GitignoreParser
  | GitignoreSource.absent => { patterns := [], negation_patterns := [] }
  | GitignoreSource.readable lines => parseGitignoreLines lines
  | GitignoreSource.unreadableAfter lines => parseGitignoreLines lines

/-- GitignoreParser._matches_pattern: directory-only patterns (trailing
    slash) never match non-directories; root-anchored patterns (leading
    slash) are matched without the implicit any-directory option; patterns
    with an internal slash match as written or one directory deeper at any
    depth; bare patterns match the base name or the full path one or more
    directories deep. -/
def matchesPattern (path pattern : PyStr) (is_dir : Bool) : Bool :=
  if (pattern.getLast? == some '/') && !is_dir then false
  else
    let pat := if pattern.getLast? == some '/' then pattern.dropLast else pattern
    if pat.head? == some '/' then fnmatch path pat.tail
    else if pat.contains '/' then
      fnmatch path pat || fnmatch path (['*', '/'] ++ pat)
    else
      fnmatch (basename path) pat || fnmatch path (['*', '/'] ++ pat)

/-- GitignoreParser.should_ignore: normalise separators, mark ignored when
    any match pattern matches, then reverse the decision when any negation
    pattern also matches. -/
def should_ignore (g : GitignoreParser) (file_path : PyStr) (is_dir : Bool) : Bool :=
  let normalized_path := normalizeSlashes file_path
  let ignored := g.patterns.any fun pattern =>
    matchesPattern normalized_path pattern is_dir
  if ignored then
    !(g.negation_patterns.any fun pattern =>
        matchesPattern normalized_path pattern is_dir)
  else false

/- ----------------------------------------------------------------------
   RepoDocumentationGenerator: default registry and collector
   (src/main.py lines 90-249).
   ---------------------------------------------------------------------- -/

/-- DEFAULT_IGNORE_PATTERNS, transcribed entry by entry from the set literal
    in RepoDocumentationGenerator. -/
def DEFAULT_IGNORE_PATTERNS : List PyStr :=
  [ pystr "node_modules", pystr "bower_components", pystr "jspm_packages",
    pystr "bin", pystr "obj", pystr "packages", pystr "*.nupkg",
    pystr "__pycache__", pystr "*.pyc", pystr "*.pyo", pystr "*.pyd",
    pystr ".Python", pystr "env", pystr "venv", pystr ".env", pystr ".venv",
    pystr "pip-log.txt", pystr "pip-delete-this-directory.txt", pystr ".tox",
    pystr ".coverage", pystr ".pytest_cache", pystr "htmlcov", pystr ".cache",
    pystr "nosetests.xml", pystr "coverage.xml", pystr "*.cover",
    pystr "*.log", pystr ".git", pystr ".nyc_output",
    pystr ".vscode", pystr ".idea", pystr "*.swp", pystr "*.swo", pystr "*~",
    pystr ".DS_Store", pystr ".DS_Store?", pystr "._*",
    pystr ".Spotlight-V100", pystr ".Trashes", pystr "ehthumbs.db",
    pystr "Thumbs.db",
    pystr ".tmp", pystr "tmp", pystr "temp", pystr "*.tmp", pystr "*.temp",
    pystr ".sass-cache", pystr ".next", pystr ".nuxt", pystr "dist",
    pystr "build", pystr "out",
    pystr "logs", pystr "npm-debug.log*", pystr "yarn-debug.log*",
    pystr "yarn-error.log*",
    pystr "README.md", pystr "readme.md", pystr "README.txt",
    pystr "readme.txt", pystr "CHANGELOG.md", pystr "changelog.md",
    pystr "LICENSE", pystr "license", pystr "LICENSE.md", pystr "license.md",
    pystr "CONTRIBUTING.md", pystr "contributing.md" ]

/-- RepoDocumentationGenerator._should_ignore_item: an entry is dropped when
    any default pattern glob-matches its name or its relative path, or when
    the gitignore rules say to ignore it. -/
def should_ignore_item (g : GitignoreParser) (item_name relative_path : PyStr)
    (is_dir : Bool) : Bool :=
  DEFAULT_IGNORE_PATTERNS.any
    (fun pattern => fnmatch item_name pattern || fnmatch relative_path pattern)
  || should_ignore g relative_path is_dir

/-- A filesystem entry: a file with name, size and modification stamp, or a
    directory with name and children. -/
inductive FSEntry where
  | file : PyStr → Nat → PyStr → FSEntry
  | dir : PyStr → List FSEntry → FSEntry

/-- Name of a filesystem entry. -/
def FSEntry.name : FSEntry → PyStr
  | FSEntry.file n _ _ => n
  | FSEntry.dir n _ => n

/-- Whether the entry is a plain file. -/
def FSEntry.isFile : FSEntry → Bool
  | FSEntry.file _ _ _ => true
  | FSEntry.dir _ _ => false

/-- Whether the entry is a directory. -/
def FSEntry.isDir : FSEntry → Bool
  | FSEntry.file _ _ _ => false
  | FSEntry.dir _ _ => true

mutual

/-- Size of a filesystem entry, used only as a recursion bound. -/
def FSEntry.esize : FSEntry → Nat
  | FSEntry.file _ _ _ => 1
  | FSEntry.dir _ cs => 1 + esizeList cs

/-- Size of a forest, used only as a recursion bound. -/
def esizeList : List FSEntry → Nat
  | [] => 1
  | e :: es => 1 + FSEntry.esize e + esizeList es

end

/-- Python lexicographic string comparison, strictly less. -/
def strLt : PyStr → PyStr → Bool
  | [], [] => false
  | [], _ :: _ => true
  | _ :: _, [] => false
  | a :: as, b :: bs => if a < b then true else if b < a then false else strLt as bs

/-- Python str.lower, applied characterwise. -/
def pyLower (s : PyStr) : PyStr := s.map Char.toLower

/-- The sort key ordering of _collect_files: directories before files, then
    case-insensitive name order. -/
def keyLe (a b : FSEntry) : Bool :=
  if a.isFile == b.isFile then !(strLt (pyLower b.name) (pyLower a.name))
  else b.isFile

/-- Stable insertion into a list sorted by keyLe. -/
def insertLe (x : FSEntry) : List FSEntry → List FSEntry
  | [] => [x]
  | y :: ys => if keyLe x y then x :: y :: ys else y :: insertLe x ys

/-- The stable sort applied to directory listings in _collect_files. -/
def sortEntries : List FSEntry → List FSEntry
  | [] => []
  | x :: xs => insertLe x (sortEntries xs)

/-- Join relative path segments with forward slashes, as str(relative_to)
    renders a relative path. -/
def joinSegs : List PyStr → PyStr
  | [] => []
  | [s] => s
  | s :: rest => s ++ '/' :: joinSegs rest

/-- One collected file record (the dict built in _collect_files). -/
structure FileInfo where
  path : PyStr
  name : PyStr
  level : Nat
  directory : PyStr
  size : Nat
  modified : PyStr
deriving DecidableEq

/-- The loop body of _collect_files over a sorted directory listing: compute
    the relative path of each child, skip ignored children entirely (never
    descending into ignored directories), emit a record for a kept file, and
    recurse into a kept directory with its own sorted listing at the next
    level. Fuel only bounds the recursion; one unit is consumed per child, and
    the sizeOf the listing is always a sufficient bound (shown below). -/
def collectLoopF (g : GitignoreParser) :
    Nat → List PyStr → Nat → List FSEntry → List FileInfo
  | 0, _, _, _ => []
  | _ + 1, _, _, [] => []
  | f + 1, pfx, level, item :: rest =>
    (if should_ignore_item g item.name (joinSegs (pfx ++ [item.name]))
        item.isDir then []
     else
       match item with
       | FSEntry.file n sz md =>
         [{ path := joinSegs (pfx ++ [n]), name := n, level := level,
            directory := if pfx.isEmpty then pystr "." else joinSegs pfx,
            size := sz, modified := md }]
       | FSEntry.dir n cs =>
         collectLoopF g f (pfx ++ [n]) (level + 1) (sortEntries cs))
    ++ collectLoopF g f pfx level rest

/-- RepoDocumentationGenerator.collect_all_files on the tree of children of
    the root directory: reset and rebuild the record list by walking the
    sorted listing from the root at level zero. -/
def collect_all_files (g : GitignoreParser) (root : List FSEntry) :
    List FileInfo :=
  collectLoopF g (esizeList root) [] 0 (sortEntries root)

/-- The generator state that the collection and selection methods touch. -/
structure Generator where
  gitignore : GitignoreParser
  file_list : List FileInfo
  excluded_files : Finset PyStr

/-- The collect_all_files method: the internal file list is reassigned from
    scratch (not appended to) and also returned. -/
def Generator.collectAllFiles (fs : List FSEntry) (gen : Generator) :
    Generator × List FileInfo :=
  let l := collect_all_files gen.gitignore fs
  ({ gen with file_list := l }, l)

/-- RepoDocumentationGenerator.get_included_files: the records whose path is
    not in the excluded set, in stored order. -/
def get_included_files (gen : Generator) : List FileInfo :=
  gen.file_list.filter fun f => !decide (f.path ∈ gen.excluded_files)

/-- FilePreviewWindow.confirm: when every listed file is excluded the window
    only shows a warning and returns (the selection survives and can be
    retried); otherwise the excluded set is handed to the callback. -/
def confirmSelection (files_list : List FileInfo) (excluded : Finset PyStr) :
    Option (Finset PyStr) :=
  if excluded.card = files_list.length then none else some excluded

/-- The generate path guarded by confirm: rejection produces no output at
    all; acceptance hands the included records to the markdown writer. -/
def runGeneration (files_list : List FileInfo) (gitignore : GitignoreParser)
    (excluded : Finset PyStr) : Option (List FileInfo) :=
  match confirmSelection files_list excluded with
  | none => none
  | some e =>
    some (get_included_files
      { gitignore := gitignore, file_list := files_list, excluded_files := e })

/-- FilePreviewWindow.toggle_all_selection: walk the known file paths and
    flip the membership of each one in the excluded set. -/
def toggle_all_selection (allPaths : List PyStr) (excluded : Finset PyStr) :
    Finset PyStr :=
  allPaths.foldl
    (fun s p => if p ∈ s then s.erase p else insert p s) excluded

/-- Look up the entry at a relative segment path in a forest, by name at
    each level, descending only through directories. -/
def findEntry : List FSEntry → List PyStr → Option FSEntry
  | _, [] => none
  | items, n :: rest =>
    match items.find? (fun e => e.name == n) with
    | none => none
    | some e =>
      match rest with
      | [] => some e
      | _ :: _ =>
        match e with
        | FSEntry.dir _ cs => findEntry cs rest
        | FSEntry.file _ _ _ => none

/-- Well-formed forest: sibling names are pairwise distinct, every name is a
    nonempty slash-free segment, and the children of every directory are
    again well-formed, as for a real directory tree. -/
inductive WF : List FSEntry → Prop where
  | nil : WF []
  | cons (e : FSEntry) (es : List FSEntry) :
      e.name ≠ [] →
      '/' ∉ e.name →
      (∀ x ∈ es, x.name ≠ e.name) →
      (∀ n cs, e = FSEntry.dir n cs → WF cs) →
      WF es →
      WF (e :: es)

/-- A chain of walk steps: the listed segments name entries of successive
    listings, every intermediate entry is a directory, and the ignore check
    is false at every step. This is the shape of evidence that the collector
    actually descended along a path. -/
inductive GoodChain (g : GitignoreParser) :
    List PyStr → List FSEntry → List PyStr → Prop where
  | last (pfx : List PyStr) (items : List FSEntry) (e : FSEntry) :
      e ∈ items →
      should_ignore_item g e.name (joinSegs (pfx ++ [e.name])) e.isDir = false →
      GoodChain g pfx items [e.name]
  | cons (pfx : List PyStr) (items : List FSEntry) (n : PyStr)
      (cs : List FSEntry) (segs : List PyStr) :
      FSEntry.dir n cs ∈ items →
      should_ignore_item g n (joinSegs (pfx ++ [n])) true = false →
      GoodChain g (pfx ++ [n]) cs segs →
      GoodChain g pfx items (n :: segs)

/-- Dispatch rules 2 to 4 of the PatternMatcher contract, written from the
    spec text for comparison with matchesPattern: a leading slash anchors the
    glob match at the root with no implicit any-directory option; an internal
    slash allows the pattern as written or one level deeper at any depth;
    a bare pattern is tried against the base name or the full path below at
    least one directory. -/
def specDispatch (path pat : PyStr) : Bool :=
  if pat.head? == some '/' then fnmatch path pat.tail
  else if pat.contains '/' then
    fnmatch path pat || fnmatch path (['*', '/'] ++ pat)
  else
    fnmatch (basename path) pat || fnmatch path (['*', '/'] ++ pat)

/-- The gitignore rules of the walkthrough scenario: a star-dot-log match
    rule and a negation rule for important.log. -/
def scenarioParser : GitignoreParser :=
  mkGitignoreParser
    (GitignoreSource.readable [pystr "*.log", pystr "!important.log"])

/-- The walkthrough scenario tree: src with a.py and a pycache, plus
    README.md, the gitignore file, debug.log and important.log at the root. -/
def scenarioTree : List FSEntry :=
  [ FSEntry.dir (pystr "src")
      [ FSEntry.file (pystr "a.py") 10 (pystr "2024-01-01 00:00:00"),
        FSEntry.dir (pystr "__pycache__")
          [ FSEntry.file (pystr "x.pyc") 5 (pystr "2024-01-01 00:00:00") ] ],
    FSEntry.file (pystr "README.md") 3 (pystr "2024-01-01 00:00:00"),
    FSEntry.file (pystr ".gitignore") 2 (pystr "2024-01-01 00:00:00"),
    FSEntry.file (pystr "debug.log") 1 (pystr "2024-01-01 00:00:00"),
    FSEntry.file (pystr "important.log") 4 (pystr "2024-01-01 00:00:00") ]

/-- A parser with no rules at all, as built from an absent gitignore file. -/
def emptyParser : GitignoreParser := mkGitignoreParser GitignoreSource.absent

/-- A small tree whose build directory is dropped by the default registry. -/
def demoTree : List FSEntry :=
  [ FSEntry.dir (pystr "build") [FSEntry.file (pystr "x.txt") 1 (pystr "t")],
    FSEntry.file (pystr "a.txt") 2 (pystr "t") ]

/-- A concrete collected record used in selection witnesses. -/
def demoRec1 : FileInfo :=
  { path := pystr "a.txt", name := pystr "a.txt", level := 0,
    directory := pystr ".", size := 2, modified := pystr "t" }

/-- A second concrete collected record used in selection witnesses. -/
def demoRec2 : FileInfo :=
  { path := pystr "b.txt", name := pystr "b.txt", level := 0,
    directory := pystr ".", size := 2, modified := pystr "t" }


/- ----------------------------------------------------------------------
   Fuel sufficiency: each fueled recursion returns the same result for any
   two sufficient bounds, so the particular bounds used above are
   immaterial; the walk lemmas below therefore hold for every bound.
   ---------------------------------------------------------------------- -/

theorem classSpan_length {body st r : PyStr}
    (h : classSpan body = some (st, r)) : r.length < body.length := by
  cases body with
  | nil => simp [classSpan, classSkip] at h
  | cons c body2 =>
    rw [classSpan] at h
    cases hidx : ((c :: body2).drop (classSkip (c :: body2))).findIdx?
        (fun x => x == ']') with
    | none => rw [hidx] at h; cases h
    | some j =>
      rw [hidx] at h
      have hr : r = (c :: body2).drop (classSkip (c :: body2) + j + 1) := by
        have := (Prod.mk.injEq _ _ _ _).mp (Option.some.inj h)
        exact this.2.symm
      subst hr
      simp [List.length_drop]
      omega

theorem translateF_fuel : ∀ (f1 f2 : Nat) (p : PyStr),
    p.length < f1 → p.length < f2 → translateF f1 p = translateF f2 p := by
  intro f1
  induction f1 with
  | zero => intro f2 p h1 h2; omega
  | succ k ih =>
    intro f2 p h1 h2
    cases f2 with
    | zero => omega
    | succ m =>
      cases p with
      | nil => rfl
      | cons c ps =>
        have hk : ps.length < k := by simp at h1; omega
        have hm : ps.length < m := by simp at h2; omega
        rw [translateF, translateF]
        by_cases hstar : c = '*'
        · subst hstar; simp [ih m ps hk hm]
        · by_cases hq : c = '?'
          · subst hq; simp [hstar, ih m ps hk hm]
          · by_cases hbr : c = '['
            · subst hbr
              simp only [hstar, hq, if_neg, if_false, reduceIte]
              cases hsp : classSpan ps with
              | none => simp [ih m ps hk hm]
              | some pr =>
                obtain ⟨stuff, rest⟩ := pr
                have hr := classSpan_length hsp
                simp [ih m rest (by omega) (by omega)]
            · simp [hstar, hq, hbr, ih m ps hk hm]

theorem tokMatchF_fuel : ∀ (f1 f2 : Nat) (ts : List GlobTok) (s : PyStr),
    ts.length + s.length < f1 → ts.length + s.length < f2 →
    tokMatchF f1 ts s = tokMatchF f2 ts s := by
  intro f1
  induction f1 with
  | zero => intro f2 ts s h1 h2; omega
  | succ k ih =>
    intro f2 ts s h1 h2
    cases f2 with
    | zero => omega
    | succ m =>
      cases ts with
      | nil => rfl
      | cons t ts2 =>
        cases t with
        | star =>
          simp only [tokMatchF]
          have ha : tokMatchF k ts2 s = tokMatchF m ts2 s := by
            apply ih <;> simp at h1 h2 ⊢ <;> omega
          cases s with
          | nil => simp [ha]
          | cons c s2 =>
            have hb : tokMatchF k (GlobTok.star :: ts2) s2
                = tokMatchF m (GlobTok.star :: ts2) s2 := by
              apply ih <;> simp at h1 h2 ⊢ <;> omega
            simp [ha, hb]
        | anyChar =>
          simp only [tokMatchF]
          cases s with
          | nil => rfl
          | cons c s2 =>
            have hb : tokMatchF k ts2 s2 = tokMatchF m ts2 s2 := by
              apply ih <;> simp at h1 h2 ⊢ <;> omega
            simp [hb]
        | lit a =>
          simp only [tokMatchF]
          cases s with
          | nil => rfl
          | cons c s2 =>
            have hb : tokMatchF k ts2 s2 = tokMatchF m ts2 s2 := by
              apply ih <;> simp at h1 h2 ⊢ <;> omega
            simp [hb]
        | cls neg content =>
          simp only [tokMatchF]
          cases s with
          | nil => rfl
          | cons c s2 =>
            have hb : tokMatchF k ts2 s2 = tokMatchF m ts2 s2 := by
              apply ih <;> simp at h1 h2 ⊢ <;> omega
            simp [hb]

theorem insertLe_perm (x : FSEntry) (l : List FSEntry) :
    (insertLe x l).Perm (x :: l) := by
  induction l with
  | nil => exact List.Perm.refl _
  | cons y ys ih =>
    rw [insertLe]
    by_cases h : keyLe x y = true
    · simp [h]
    · simp only [h, if_false, Bool.false_eq_true, reduceIte]
      exact ((ih.cons y).trans (List.Perm.swap x y ys))

theorem sortEntries_perm (l : List FSEntry) : (sortEntries l).Perm l := by
  induction l with
  | nil => exact List.Perm.refl _
  | cons x xs ih =>
    rw [sortEntries]
    exact (insertLe_perm x (sortEntries xs)).trans (ih.cons x)

theorem mem_sortEntries {x : FSEntry} {l : List FSEntry} :
    x ∈ sortEntries l ↔ x ∈ l :=
  (sortEntries_perm l).mem_iff

theorem esize_pos (e : FSEntry) : 1 ≤ e.esize := by
  cases e <;> simp [FSEntry.esize]

theorem esizeList_pos (l : List FSEntry) : 1 ≤ esizeList l := by
  cases l with
  | nil => simp [esizeList]
  | cons e es => simp [esizeList]; omega

theorem esizeList_perm {l1 l2 : List FSEntry} (h : l1.Perm l2) :
    esizeList l1 = esizeList l2 := by
  induction h with
  | nil => rfl
  | cons x _ ih => simp [esizeList, ih]
  | swap x y l => simp [esizeList]; omega
  | trans _ _ ih1 ih2 => omega

theorem collectLoopF_fuel (g : GitignoreParser) :
    ∀ (f1 f2 : Nat) (pfx : List PyStr) (level : Nat) (items : List FSEntry),
    esizeList items ≤ f1 → esizeList items ≤ f2 →
    collectLoopF g f1 pfx level items = collectLoopF g f2 pfx level items := by
  intro f1
  induction f1 with
  | zero =>
    intro f2 pfx level items h1 h2
    have := esizeList_pos items; omega
  | succ k ih =>
    intro f2 pfx level items h1 h2
    cases f2 with
    | zero => have := esizeList_pos items; omega
    | succ m =>
      cases items with
      | nil => rfl
      | cons item rest =>
        have hrp := esizeList_pos rest
        have hep := esize_pos item
        have hsz : esizeList (item :: rest) = 1 + item.esize + esizeList rest := by
          simp [esizeList]
        have hrest : collectLoopF g k pfx level rest
            = collectLoopF g m pfx level rest := by
          apply ih <;> omega
        simp only [collectLoopF]
        rw [hrest]
        cases item with
        | file n sz md => rfl
        | dir n cs =>
          have hcs : esizeList (sortEntries cs) = esizeList cs :=
            esizeList_perm (sortEntries_perm cs)
          have hde : (FSEntry.dir n cs).esize = 1 + esizeList cs := by
            simp [FSEntry.esize]
          have hsub : collectLoopF g k (pfx ++ [n]) (level + 1) (sortEntries cs)
              = collectLoopF g m (pfx ++ [n]) (level + 1) (sortEntries cs) := by
            apply ih <;> omega
          congr 1
          by_cases hig : should_ignore_item g (FSEntry.dir n cs).name
              (joinSegs (pfx ++ [(FSEntry.dir n cs).name]))
              (FSEntry.dir n cs).isDir = true
          · simp [hig]
          · simp only [hig, if_false, Bool.false_eq_true, reduceIte]
            exact hsub

/-- C3: a directory-only pattern (one that ends in a slash) never matches a
    non-directory entry. -/
theorem c3_directory_only (path pattern : PyStr)
    (h : pattern.getLast? = some '/') :
    matchesPattern path pattern false = false := by
  rw [matchesPattern]
  simp [h]

/-- C3 witness at a concrete directory-only pattern and file path. -/
theorem c3_witness : matchesPattern (pystr "logs") (pystr "logs/") false = false :=
  c3_directory_only (pystr "logs") (pystr "logs/") (by decide)

/-- C4: matchesPattern agrees with the dispatch written from the spec text:
    after the directory-only gate and optional trailing-slash strip, a
    leading slash anchors at the root, an internal slash also tries one
    level deeper, and a bare pattern tries the base name and deeper paths. -/
theorem c4_dispatch (path pattern : PyStr) (is_dir : Bool) :
    matchesPattern path pattern is_dir =
      if pattern.getLast? == some '/' then
        is_dir && specDispatch path pattern.dropLast
      else specDispatch path pattern := by
  rw [matchesPattern, specDispatch]
  cases h : (pattern.getLast? == some '/') <;> cases is_dir <;>
    simp [h, specDispatch]

/-- C9: parser construction never fails; an unreadable file yields exactly
    the rules parsed from the lines read before the failure (same parser as
    a file holding just those lines) and an absent file yields empty rule
    lists. -/
theorem c9_construction (lines : List PyStr) :
    mkGitignoreParser (GitignoreSource.unreadableAfter lines)
        = mkGitignoreParser (GitignoreSource.readable lines)
    ∧ mkGitignoreParser GitignoreSource.absent
        = { patterns := [], negation_patterns := [] } :=
  ⟨rfl, rfl⟩

/-- C10: running the collect method twice in a row on the same tree equals
    running it once; the internal file list is reset, not appended to. -/
theorem c10_collect_idempotent (fs : List FSEntry) (gen : Generator) :
    Generator.collectAllFiles fs (Generator.collectAllFiles fs gen).1
      = Generator.collectAllFiles fs gen := rfl

/-- C1 counterexample: on the walkthrough scenario tree the collector does
    not keep important.log (the default registry pattern star-dot-log drops
    it before the gitignore negation is ever consulted) and it does keep the
    gitignore file itself, so the collected set is not the claimed pair. -/
theorem c1_counterexample :
    pystr "important.log"
        ∉ (collect_all_files scenarioParser scenarioTree).map FileInfo.path
    ∧ pystr ".gitignore"
        ∈ (collect_all_files scenarioParser scenarioTree).map FileInfo.path := by
  decide

/-- C1 amended: on the walkthrough scenario the collected paths are exactly
    src/a.py and .gitignore, in walk order. -/
theorem c1_amended :
    (collect_all_files scenarioParser scenarioTree).map FileInfo.path
      = [pystr "src/a.py", pystr ".gitignore"] := by
  decide

theorem perm_any {l1 l2 : List PyStr} (h : l1.Perm l2) (p : PyStr → Bool) :
    l1.any p = l2.any p := by
  induction h with
  | nil => rfl
  | cons x _ ih => simp [ih]
  | swap x y l => simp [List.any_cons]; cases p x <;> cases p y <;> simp
  | trans _ _ ih1 ih2 => rw [ih1, ih2]

/-- C2: shouldIgnore is true exactly when some match pattern matches the
    normalised path and no negation pattern matches it; with no match
    patterns nothing is ignored (a negation rule alone has no effect); and
    the result does not depend on the order of rules within either list. -/
theorem c2_should_ignore (g g2 : GitignoreParser) (p : PyStr) (d : Bool) :
    (should_ignore g p d = true ↔
      ((∃ pat ∈ g.patterns,
          matchesPattern (normalizeSlashes p) pat d = true)
        ∧ ∀ pat ∈ g.negation_patterns,
            matchesPattern (normalizeSlashes p) pat d = false))
    ∧ (g.patterns = [] → should_ignore g p d = false)
    ∧ (g.patterns.Perm g2.patterns →
        g.negation_patterns.Perm g2.negation_patterns →
        should_ignore g p d = should_ignore g2 p d) := by
  have hshape : ∀ (h : GitignoreParser),
      should_ignore h p d
        = ((h.patterns.any fun pat =>
              matchesPattern (normalizeSlashes p) pat d)
            && !(h.negation_patterns.any fun pat =>
                  matchesPattern (normalizeSlashes p) pat d)) := by
    intro h
    rw [should_ignore]
    cases hA : (h.patterns.any fun pat =>
        matchesPattern (normalizeSlashes p) pat d) <;> simp [hA]
  refine ⟨?_, ?_, ?_⟩
  · rw [hshape g]
    simp [List.any_eq_true, List.any_eq_false]
  · intro hnil
    rw [hshape g, hnil]
    simp
  · intro hp hn
    rw [hshape g, hshape g2, perm_any hp, perm_any hn]

/-- C2 witness: a concrete path judged by two parsers whose rule lists are
    reorderings of each other, and a parser holding only a negation rule. -/
theorem c2_witness :
    should_ignore
        { patterns := [pystr "*.log", pystr "*.tmp"],
          negation_patterns := [pystr "important.log"] }
        (pystr "debug.log") false
      = should_ignore
          { patterns := [pystr "*.tmp", pystr "*.log"],
            negation_patterns := [pystr "important.log"] }
          (pystr "debug.log") false
    ∧ should_ignore
        { patterns := [], negation_patterns := [pystr "*.log"] }
        (pystr "debug.log") false = false := by
  constructor
  · exact (c2_should_ignore
      { patterns := [pystr "*.log", pystr "*.tmp"],
        negation_patterns := [pystr "important.log"] }
      { patterns := [pystr "*.tmp", pystr "*.log"],
        negation_patterns := [pystr "important.log"] }
      (pystr "debug.log") false).2.2 (by decide) (by decide)
  · exact (c2_should_ignore
      { patterns := [], negation_patterns := [pystr "*.log"] }
      { patterns := [], negation_patterns := [pystr "*.log"] }
      (pystr "debug.log") false).2.1 rfl

theorem filter_excluded_length :
    ∀ (l : List FileInfo) (e : Finset PyStr),
    (l.map FileInfo.path).Nodup →
    (∀ q ∈ e, q ∈ l.map FileInfo.path) →
    (l.filter fun f => !decide (f.path ∈ e)).length + e.card = l.length := by
  intro l
  induction l with
  | nil =>
    intro e _ hsub
    have : e = ∅ := by
      apply Finset.eq_empty_of_forall_not_mem
      intro q hq
      simpa using hsub q hq
    simp [this]
  | cons f t ih =>
    intro e hnd hsub
    have hnd2 : f.path ∉ t.map FileInfo.path ∧ (t.map FileInfo.path).Nodup := by
      rw [List.map_cons, List.nodup_cons] at hnd; exact hnd
    by_cases hf : f.path ∈ e
    · have hstep : (List.filter (fun x => !decide (x.path ∈ e)) (f :: t))
          = List.filter (fun x => !decide (x.path ∈ e)) t := by
        simp [List.filter_cons, hf]
      have hcong : List.filter (fun x => !decide (x.path ∈ e)) t
          = List.filter (fun x => !decide (x.path ∈ e.erase f.path)) t := by
        apply List.filter_congr
        intro x hx
        have hxne : x.path ≠ f.path := by
          intro hEq
          exact hnd2.1 (hEq ▸ List.mem_map_of_mem FileInfo.path hx)
        simp [Finset.mem_erase, hxne]
      have hsub2 : ∀ q ∈ e.erase f.path, q ∈ t.map FileInfo.path := by
        intro q hq
        have hqe := Finset.mem_of_mem_erase hq
        have hqne := Finset.ne_of_mem_erase hq
        have hm := hsub q hqe
        rw [List.map_cons, List.mem_cons] at hm
        exact hm.resolve_left hqne
      have ihh := ih (e.erase f.path) hnd2.2 hsub2
      have hpos : 1 ≤ e.card := Finset.card_pos.mpr ⟨f.path, hf⟩
      have hcard : (e.erase f.path).card = e.card - 1 :=
        Finset.card_erase_of_mem hf
      rw [hstep, hcong]
      simp only [List.length_cons]
      omega
    · have hstep : (List.filter (fun x => !decide (x.path ∈ e)) (f :: t))
          = f :: List.filter (fun x => !decide (x.path ∈ e)) t := by
        simp [List.filter_cons, hf]
      have hsub2 : ∀ q ∈ e, q ∈ t.map FileInfo.path := by
        intro q hq
        have hm := hsub q hq
        rw [List.map_cons, List.mem_cons] at hm
        refine hm.resolve_left ?_
        intro hEq
        exact hf (hEq ▸ hq)
      have ihh := ih e hnd2.2 hsub2
      rw [hstep]
      simp only [List.length_cons]
      omega

/-- C6: the included records are the order-preserving subsequence of the
    stored records whose path is not excluded, and when every excluded path
    is a known record path with no duplicate record paths, included length
    plus excluded size equals the total count. -/
theorem c6_included (gen : Generator)
    (hnd : (gen.file_list.map FileInfo.path).Nodup)
    (hsub : ∀ q ∈ gen.excluded_files, q ∈ gen.file_list.map FileInfo.path) :
    List.Sublist (get_included_files gen) gen.file_list
    ∧ (∀ f, f ∈ get_included_files gen ↔
        f ∈ gen.file_list ∧ f.path ∉ gen.excluded_files)
    ∧ (get_included_files gen).length + gen.excluded_files.card
        = gen.file_list.length := by
  refine ⟨List.filter_sublist _, ?_, ?_⟩
  · intro f
    rw [get_included_files]
    simp [List.mem_filter]
  · exact filter_excluded_length gen.file_list gen.excluded_files hnd hsub

/-- C6 witness on a concrete record list with one excluded path. -/
theorem c6_witness :
    (get_included_files
        { gitignore := emptyParser, file_list := [demoRec1, demoRec2],
          excluded_files := {pystr "b.txt"} }).length
      + ({pystr "b.txt"} : Finset PyStr).card
      = ([demoRec1, demoRec2] : List FileInfo).length :=
  (c6_included
    { gitignore := emptyParser, file_list := [demoRec1, demoRec2],
      excluded_files := {pystr "b.txt"} }
    (by decide) (by decide)).2.2

/-- C7: excluding every collected path makes confirm reject the request and
    produce no output, while any strictly smaller excluded set lets the
    generation proceed with the corresponding included records. -/
theorem c7_empty_selection (files : List FileInfo) (gitignore : GitignoreParser)
    (hnd : (files.map FileInfo.path).Nodup) :
    runGeneration files gitignore (files.map FileInfo.path).toFinset = none
    ∧ ∀ e : Finset PyStr, e ⊂ (files.map FileInfo.path).toFinset →
        runGeneration files gitignore e
          = some (get_included_files
              { gitignore := gitignore, file_list := files,
                excluded_files := e }) := by
  have hcard : (files.map FileInfo.path).toFinset.card = files.length := by
    rw [List.toFinset_card_of_nodup hnd, List.length_map]
  constructor
  · rw [runGeneration, confirmSelection]
    simp [hcard]
  · intro e he
    have hlt : e.card < files.length := by
      have := Finset.card_lt_card he
      omega
    rw [runGeneration, confirmSelection]
    simp [Nat.ne_of_lt hlt]

/-- C7 witness: one record, excluded set equal to its path set, rejection;
    and with nothing excluded the generation proceeds. -/
theorem c7_witness :
    runGeneration [demoRec1] emptyParser
        (([demoRec1].map FileInfo.path).toFinset) = none
    ∧ runGeneration [demoRec1] emptyParser ∅
        = some (get_included_files
            { gitignore := emptyParser, file_list := [demoRec1],
              excluded_files := ∅ }) := by
  constructor
  · exact (c7_empty_selection [demoRec1] emptyParser (by decide)).1
  · exact (c7_empty_selection [demoRec1] emptyParser (by decide)).2 ∅
      (by decide)

theorem toggle_not_listed :
    ∀ (l : List PyStr) (s : Finset PyStr) (x : PyStr), x ∉ l →
    (x ∈ toggle_all_selection l s ↔ x ∈ s) := by
  intro l
  induction l with
  | nil => intro s x _; rw [toggle_all_selection]; simp
  | cons p t ih =>
    intro s x hx
    have hxp : x ≠ p := fun h => hx (h ▸ List.mem_cons_self p t)
    have hxt : x ∉ t := fun h => hx (List.mem_cons_of_mem p h)
    rw [toggle_all_selection, List.foldl_cons]
    rw [show (t.foldl (fun s p => if p ∈ s then s.erase p else insert p s)
          (if p ∈ s then s.erase p else insert p s))
        = toggle_all_selection t (if p ∈ s then s.erase p else insert p s)
        from rfl]
    rw [ih _ x hxt]
    by_cases hp : p ∈ s
    · simp [hp, Finset.mem_erase, hxp]
    · simp [hp, Finset.mem_insert, hxp]

theorem toggle_listed :
    ∀ (l : List PyStr), l.Nodup → ∀ (s : Finset PyStr) (x : PyStr), x ∈ l →
    (x ∈ toggle_all_selection l s ↔ x ∉ s) := by
  intro l
  induction l with
  | nil => intro _ s x hx; cases hx
  | cons p t ih =>
    intro hnd s x hx
    have hnd2 := List.nodup_cons.mp hnd
    rw [toggle_all_selection, List.foldl_cons]
    rcases List.mem_cons.mp hx with h1 | h2
    · subst h1
      have hxt : x ∉ t := hnd2.1
      rw [show (t.foldl (fun s p => if p ∈ s then s.erase p else insert p s)
            (if x ∈ s then s.erase x else insert x s))
          = toggle_all_selection t
              (if x ∈ s then s.erase x else insert x s) from rfl]
      rw [toggle_not_listed t _ x hxt]
      by_cases hp : x ∈ s
      · simp [hp, Finset.mem_erase]
      · simp [hp, Finset.mem_insert]
    · have hxp : x ≠ p := by
        intro h
        exact hnd2.1 (h ▸ h2)
      rw [show (t.foldl (fun s p => if p ∈ s then s.erase p else insert p s)
            (if p ∈ s then s.erase p else insert p s))
          = toggle_all_selection t
              (if p ∈ s then s.erase p else insert p s) from rfl]
      rw [ih hnd2.2 _ x h2]
      by_cases hp : p ∈ s
      · simp [hp, Finset.mem_erase, hxp]
      · simp [hp, Finset.mem_insert, hxp]

/-- C8: flipping the membership of every known path twice restores the
    original excluded set, for any duplicate-free list of known paths. -/
theorem c8_invert_involution (allPaths : List PyStr) (excluded : Finset PyStr)
    (hnd : allPaths.Nodup) :
    toggle_all_selection allPaths (toggle_all_selection allPaths excluded)
      = excluded := by
  ext x
  by_cases hx : x ∈ allPaths
  · rw [toggle_listed allPaths hnd _ x hx, toggle_listed allPaths hnd _ x hx]
    by_cases hxs : x ∈ excluded <;> simp [hxs]
  · rw [toggle_not_listed allPaths _ x hx, toggle_not_listed allPaths _ x hx]

/-- C8 witness on two known paths with one of them initially excluded. -/
theorem c8_witness :
    toggle_all_selection [pystr "a.txt", pystr "b.txt"]
        (toggle_all_selection [pystr "a.txt", pystr "b.txt"]
          ({pystr "b.txt"} : Finset PyStr))
      = ({pystr "b.txt"} : Finset PyStr) :=
  c8_invert_involution [pystr "a.txt", pystr "b.txt"] {pystr "b.txt"}
    (by decide)

theorem gc_mono {g : GitignoreParser} {items1 items2 : List FSEntry}
    (hsub : ∀ e ∈ items1, e ∈ items2) {pfx : List PyStr} {segs : List PyStr}
    (h : GoodChain g pfx items1 segs) : GoodChain g pfx items2 segs := by
  cases h with
  | last pfx items e hmem hig =>
    exact GoodChain.last pfx items2 e (hsub e hmem) hig
  | cons pfx items n cs segs hmem hig hch =>
    exact GoodChain.cons pfx items2 n cs segs (hsub _ hmem) hig hch

theorem collect_chain (g : GitignoreParser) :
    ∀ (fuel : Nat) (pfx : List PyStr) (level : Nat) (items : List FSEntry)
      (r : FileInfo), r ∈ collectLoopF g fuel pfx level items →
      ∃ segs, segs ≠ [] ∧ r.path = joinSegs (pfx ++ segs)
        ∧ GoodChain g pfx items segs := by
  intro fuel
  induction fuel with
  | zero => intro pfx level items r hr; simp [collectLoopF] at hr
  | succ f ih =>
    intro pfx level items r hr
    cases items with
    | nil => simp [collectLoopF] at hr
    | cons item rest =>
      simp only [collectLoopF] at hr
      rcases List.mem_append.mp hr with h1 | h2
      · by_cases hig : should_ignore_item g item.name
            (joinSegs (pfx ++ [item.name])) item.isDir = true
        · simp [hig] at h1
        · have hig2 : should_ignore_item g item.name
              (joinSegs (pfx ++ [item.name])) item.isDir = false := by
            simpa using hig
          rw [if_neg (by simp [hig2])] at h1
          cases item with
          | file n sz md =>
            rw [List.mem_singleton] at h1
            refine ⟨[n], by simp, ?_, ?_⟩
            · rw [h1]
            · exact GoodChain.last pfx (FSEntry.file n sz md :: rest)
                (FSEntry.file n sz md) (List.mem_cons_self _ _) hig2
          | dir n cs =>
            obtain ⟨segs2, hne, hpath, hch⟩ :=
              ih (pfx ++ [n]) (level + 1) (sortEntries cs) r h1
            refine ⟨n :: segs2, by simp, ?_, ?_⟩
            · rw [hpath]
              congr 1
              simp
            · refine GoodChain.cons pfx (FSEntry.dir n cs :: rest) n cs segs2
                (List.mem_cons_self _ _) ?_
                (gc_mono (fun e he => mem_sortEntries.mp he) hch)
              simpa [FSEntry.name, FSEntry.isDir] using hig2
      · obtain ⟨segs, hne, hpath, hch⟩ := ih pfx level rest r h2
        exact ⟨segs, hne, hpath,
          gc_mono (fun e he => List.mem_cons_of_mem _ he) hch⟩

theorem wf_children {items : List FSEntry} (h : WF items) :
    ∀ (n : PyStr) (cs : List FSEntry), FSEntry.dir n cs ∈ items → WF cs := by
  induction h with
  | nil => intro n cs hm; cases hm
  | cons e es hne hns hdist hdir hwf ihdir ih =>
    intro n cs hm
    rcases List.mem_cons.mp hm with h1 | h2
    · exact hdir n cs h1.symm
    · exact ih n cs h2

theorem wf_name_ok {items : List FSEntry} (h : WF items) :
    ∀ e ∈ items, e.name ≠ [] ∧ '/' ∉ e.name := by
  induction h with
  | nil => intro e hm; cases hm
  | cons a es hne hns hdist hdir hwf ihdir ih =>
    intro e hm
    rcases List.mem_cons.mp hm with h1 | h2
    · subst h1; exact ⟨hne, hns⟩
    · exact ih e h2

theorem wf_find {items : List FSEntry} (h : WF items) :
    ∀ e ∈ items, items.find? (fun x => x.name == e.name) = some e := by
  induction h with
  | nil => intro e hm; cases hm
  | cons a es hne hns hdist hdir hwf ihdir ih =>
    intro e hm
    rcases List.mem_cons.mp hm with h1 | h2
    · subst h1
      rw [List.find?_cons_of_pos _ (by simp)]
    · rw [List.find?_cons_of_neg _ (by
        simp only [beq_iff_eq]
        intro hEq
        exact (hdist e h2) hEq.symm)]
      exact ih e h2

theorem chain_names {g : GitignoreParser} :
    ∀ {pfx : List PyStr} {items : List FSEntry} {segs : List PyStr},
    GoodChain g pfx items segs → WF items →
    ∀ s ∈ segs, s ≠ [] ∧ '/' ∉ s := by
  intro pfx items segs h
  induction h with
  | last pfx items e hmem hig =>
    intro hwf s hs
    rw [List.mem_singleton] at hs
    subst hs
    exact wf_name_ok hwf _ hmem
  | cons pfx items n cs segs hmem hig hch ih =>
    intro hwf s hs
    rcases List.mem_cons.mp hs with h1 | h2
    · subst h1
      have := wf_name_ok hwf _ hmem
      simpa [FSEntry.name] using this
    · exact ih (wf_children hwf n cs hmem) s h2

theorem find_names :
    ∀ (q : List PyStr) (items : List FSEntry), WF items →
    ∀ e, findEntry items q = some e → ∀ s ∈ q, s ≠ [] ∧ '/' ∉ s := by
  intro q
  induction q with
  | nil => intro items hwf e hf; simp [findEntry] at hf
  | cons n rest ih =>
    intro items hwf e hf s hs
    rw [findEntry] at hf
    cases hfind : items.find? (fun x => x.name == n) with
    | none => rw [hfind] at hf; cases hf
    | some e0 =>
      rw [hfind] at hf
      have he0mem : e0 ∈ items := List.mem_of_find?_eq_some hfind
      have he0n : e0.name = n := by
        have := List.find?_some hfind
        simpa using this
      rcases List.mem_cons.mp hs with h1 | h2
      · subst h1
        rw [← he0n]
        exact wf_name_ok hwf _ he0mem
      · cases rest with
        | nil => cases h2
        | cons r rs =>
          cases e0 with
          | file a b c => cases hf
          | dir m cs =>
            exact ih cs (wf_children hwf m cs he0mem) e hf s h2

theorem chain_find {g : GitignoreParser} :
    ∀ {pfx : List PyStr} {items : List FSEntry} {segs : List PyStr},
    GoodChain g pfx items segs → WF items →
    ∀ q, q ≠ [] → q <+: segs → q ≠ segs →
    ∃ n cs, findEntry items q = some (FSEntry.dir n cs)
      ∧ should_ignore_item g n (joinSegs (pfx ++ q)) true = false := by
  intro pfx items segs h
  induction h with
  | last pfx items e hmem hig =>
    intro hwf q hne hpre hneq
    exfalso
    obtain ⟨t, ht⟩ := hpre
    cases q with
    | nil => exact hne rfl
    | cons a as =>
      rw [List.cons_append] at ht
      injection ht with h1 h2
      have h3 := List.append_eq_nil.mp h2
      exact hneq (by simp [h1, h3.1])
  | cons pfx items n cs segs hmem hig hch ih =>
    intro hwf q hne hpre hneq
    obtain ⟨t, ht⟩ := hpre
    cases q with
    | nil => exact absurd rfl hne
    | cons a as =>
      rw [List.cons_append, List.cons.injEq] at ht
      obtain ⟨han, hrest⟩ := ht
      subst han
      have hfind : items.find? (fun x => x.name == (FSEntry.dir a cs).name)
          = some (FSEntry.dir a cs) := wf_find hwf _ hmem
      have hfind2 : items.find? (fun x => x.name == a)
          = some (FSEntry.dir a cs) := by
        simpa [FSEntry.name] using hfind
      cases as with
      | nil =>
        refine ⟨a, cs, ?_, hig⟩
        rw [findEntry, hfind2]
      | cons a2 as2 =>
        have hpre2 : (a2 :: as2) <+: segs := ⟨t, hrest⟩
        have hneq2 : (a2 :: as2) ≠ segs := by
          intro hEq
          exact hneq (by rw [hEq])
        obtain ⟨n2, cs2, hf2, hig2⟩ :=
          ih (wf_children hwf a cs hmem) (a2 :: as2) (by simp) hpre2 hneq2
        refine ⟨n2, cs2, ?_, ?_⟩
        · rw [findEntry, hfind2]
          exact hf2
        · have hap : pfx ++ a :: a2 :: as2 = (pfx ++ [a]) ++ (a2 :: as2) := by
            simp
          rw [hap]
          exact hig2

theorem split_slash_eq :
    ∀ (a b x y : PyStr), '/' ∉ a → '/' ∉ b →
    a ++ '/' :: x = b ++ '/' :: y → a = b ∧ x = y := by
  intro a
  induction a with
  | nil =>
    intro b x y ha hb h
    cases b with
    | nil =>
      rw [List.nil_append, List.nil_append] at h
      injection h with h1 h2
      exact ⟨rfl, h2⟩
    | cons c b2 =>
      rw [List.nil_append, List.cons_append] at h
      injection h with h1 h2
      exact absurd (h1 ▸ List.mem_cons_self c b2) hb
  | cons c a2 ih =>
    intro b x y ha hb h
    cases b with
    | nil =>
      rw [List.cons_append, List.nil_append] at h
      injection h with h1 h2
      exact absurd (h1 ▸ List.mem_cons_self c a2) ha
    | cons c2 b2 =>
      rw [List.cons_append, List.cons_append] at h
      injection h with h1 h2
      have ha2 : '/' ∉ a2 := fun hm => ha (List.mem_cons_of_mem c hm)
      have hb2 : '/' ∉ b2 := fun hm => hb (List.mem_cons_of_mem c2 hm)
      obtain ⟨hab, hxy⟩ := ih b2 x y ha2 hb2 h2
      exact ⟨by rw [h1, hab], hxy⟩

theorem joinSegs_single (s : PyStr) : joinSegs [s] = s := rfl

theorem joinSegs_cons_cons (s r : PyStr) (t : List PyStr) :
    joinSegs (s :: r :: t) = s ++ '/' :: joinSegs (r :: t) := rfl

theorem joinSegs_extends :
    ∀ (B A : List PyStr),
    (∀ s ∈ A, s ≠ [] ∧ '/' ∉ s) → (∀ s ∈ B, s ≠ [] ∧ '/' ∉ s) →
    (joinSegs A ++ ['/']) <+: joinSegs B → A <+: B ∧ A ≠ B := by
  intro B
  induction B with
  | nil =>
    intro A hA hB hpre
    exfalso
    have hlen := hpre.length_le
    simp [joinSegs] at hlen
  | cons b B2 ihB =>
    intro A hA hB hpre
    obtain ⟨hbne, hbsl⟩ := hB b (List.mem_cons_self b B2)
    cases A with
    | nil =>
      exfalso
      obtain ⟨t, ht⟩ := hpre
      rw [joinSegs] at ht
      rw [List.nil_append] at ht
      cases b with
      | nil => exact hbne rfl
      | cons c b3 =>
        have hc : c = '/' := by
          cases B2 with
          | nil =>
            rw [joinSegs_single, List.cons_append] at ht
            injection ht.symm
          | cons b2 B3 =>
            rw [joinSegs_cons_cons, List.cons_append] at ht
            injection ht.symm
        exact hbsl (hc ▸ List.mem_cons_self c b3)
    | cons a A2 =>
      obtain ⟨hane, hasl⟩ := hA a (List.mem_cons_self a A2)
      cases A2 with
      | nil =>
        cases B2 with
        | nil =>
          exfalso
          have hm : '/' ∈ joinSegs [a] ++ ['/'] := by simp
          have hmb := hpre.subset hm
          rw [joinSegs_single] at hmb
          exact hbsl hmb
        | cons b2 B3 =>
          obtain ⟨t, ht⟩ := hpre
          rw [joinSegs_single, joinSegs_cons_cons] at ht
          have ht2 : a ++ '/' :: t = b ++ '/' :: joinSegs (b2 :: B3) := by
            simpa [List.append_assoc] using ht
          obtain ⟨hab, -⟩ := split_slash_eq a b t _ hasl hbsl ht2
          subst hab
          refine ⟨⟨b2 :: B3, by simp⟩, ?_⟩
          intro hEq
          rw [List.cons.injEq] at hEq
          exact List.cons_ne_nil b2 B3 hEq.2.symm
      | cons a2 A3 =>
        cases B2 with
        | nil =>
          exfalso
          have hm : '/' ∈ joinSegs (a :: a2 :: A3) ++ ['/'] := by simp
          have hmb := hpre.subset hm
          rw [joinSegs_single] at hmb
          exact hbsl hmb
        | cons b2 B3 =>
          obtain ⟨t, ht⟩ := hpre
          rw [joinSegs_cons_cons a a2 A3, joinSegs_cons_cons b b2 B3] at ht
          have ht2 : a ++ '/' :: ((joinSegs (a2 :: A3) ++ ['/']) ++ t)
              = b ++ '/' :: joinSegs (b2 :: B3) := by
            simpa [List.append_assoc] using ht
          obtain ⟨hab, hrest⟩ := split_slash_eq a b _ _ hasl hbsl ht2
          subst hab
          have hpre2 : (joinSegs (a2 :: A3) ++ ['/']) <+: joinSegs (b2 :: B3) :=
            ⟨t, hrest⟩
          obtain ⟨hsubl, hneq⟩ := ihB (a2 :: A3)
            (fun s hs => hA s (List.mem_cons_of_mem a hs))
            (fun s hs => hB s (List.mem_cons_of_mem a hs))
            hpre2
          constructor
          · obtain ⟨u, hu⟩ := hsubl
            exact ⟨u, by rw [List.cons_append, hu]⟩
          · intro hEq
            rw [List.cons.injEq] at hEq
            exact hneq hEq.2

/-- C5: if the tree is a well-formed directory tree and the directory found
    at some relative path is skipped by the ignore check (default registry or
    gitignore rules), then no collected record has a path strictly inside
    that directory: the collector never descends into a skipped directory. -/
theorem c5_no_descent (g : GitignoreParser) (root : List FSEntry)
    (dsegs : List PyStr) (n : PyStr) (cs : List FSEntry)
    (hwf : WF root)
    (hfind : findEntry root dsegs = some (FSEntry.dir n cs))
    (hig : should_ignore_item g n (joinSegs dsegs) true = true) :
    ∀ r ∈ collect_all_files g root, ¬ ((joinSegs dsegs ++ ['/']) <+: r.path) := by
  intro r hr hpre
  obtain ⟨segs, hne, hpath, hch0⟩ :=
    collect_chain g (esizeList root) [] 0 (sortEntries root) r hr
  have hch : GoodChain g [] root segs :=
    gc_mono (fun e he => mem_sortEntries.mp he) hch0
  rw [List.nil_append] at hpath
  rw [hpath] at hpre
  have hsegsok := chain_names hch hwf
  have hdok := find_names dsegs root hwf _ hfind
  obtain ⟨hsubl, hneq⟩ := joinSegs_extends segs dsegs hdok hsegsok hpre
  have hdne : dsegs ≠ [] := by
    intro hEq
    rw [hEq, findEntry] at hfind
    cases hfind
  obtain ⟨n2, cs2, hfind2, hig2⟩ := chain_find hch hwf dsegs hdne hsubl hneq
  rw [hfind] at hfind2
  injection hfind2 with hinj
  rw [List.nil_append] at hig2
  rw [FSEntry.dir.injEq] at hinj
  rw [← hinj.1] at hig2
  rw [hig2] at hig
  cases hig

/-- C5 witness: in a tree whose build directory is dropped by the default
    registry, the one collected record has no path inside build. -/
theorem c5_witness :
    ¬ ((joinSegs [pystr "build"] ++ ['/']) <+: demoRec1.path) :=
  c5_no_descent emptyParser demoTree [pystr "build"] (pystr "build")
    [FSEntry.file (pystr "x.txt") 1 (pystr "t")]
    (WF.cons _ _ (by decide) (by decide) (by decide)
      (fun n cs h => by
        cases h
        exact WF.cons _ _ (by decide) (by decide) (by decide)
          (fun n2 cs2 h2 => by cases h2) WF.nil)
      (WF.cons _ _ (by decide) (by decide) (by decide)
        (fun n2 cs2 h2 => by cases h2) WF.nil))
    rfl
    (by decide)
    demoRec1
    (by decide)
